import Mathlib

/-!
Shallow embedding of the benchmarking plot script of this repository
(src/benchmarking/plot.py) and proofs about it.

The script globs the JSON files of a fixed data directory, sorts the
resulting paths, and for each file derives a source name from the
filename, skips it when that name is on an ignore list, records a legend
label, parses the JSON contents, and draws a line plus a scatter overlay
for every gate of a fixed five-gate list present in the parsed record,
onto the corresponding cell of a 2x3 subplot grid, styling each touched
subplot (log y-scale, legend, title, grid, axis labels).  Colors are
taken from an explicit override table or captured from the per-axes
default color cycle of the plotting backend on first draw and reused.
-/

namespace PlotBench

/-! ### Filename machinery

Python: fName = fPath.split("/")[-1].replace(".json", "").
String.replace in Python removes every (leftmost, non-overlapping)
occurrence, scanning left to right; stripJson mirrors that for the fixed
pattern ".json" on the character list of the string. -/

def stripJson : List Char → List Char
  | '.' :: 'j' :: 's' :: 'o' :: 'n' :: rest => stripJson rest
  | c :: rest => c :: stripJson rest
  | [] => []

/-- The text after the final slash of a path, as Python split("/")[-1]. -/
def lastComponent (s : List Char) : List Char :=
  (s.reverse.takeWhile (fun c => !(c == '/'))).reverse

/-- Derived source name of a file path: last path component with every
occurrence of ".json" deleted. -/
def derivedName (path : String) : String :=
  ⟨stripJson (lastComponent path.toList)⟩

/-- The fixed relative data directory of the script (path="benchmarking/data"). -/
def dataDir : String := "benchmarking/data"

/-- Python glob.glob(path + "/*.json") matches a directory entry iff its
name ends in ".json" and, per the glob special-casing of hidden files,
does not begin with a dot. -/
def globMatches (name : String) : Bool :=
  ".json".toList.isSuffixOf name.toList && !(name.toList.headD ' ' == '.')

/-! ### Data model

A parsed benchmark record is a JSON object keyed by gate name whose
entries hold the paired "nqubits" and "times" arrays.  An input file is
a directory entry: its filename (no slash, being a single directory
entry) and its contents; content = none models a file whose bytes
cannot be read or parsed into the benchmark-record shape, so that
json.load (or the subsequent key accesses) raises. -/

structure GateData where
  nqubits : List Int
  times : List Int
deriving DecidableEq

abbrev Record := List (String × GateData)

structure InputFile where
  name : String
  content : Option Record
deriving DecidableEq

/-- The derived source name of an input file: the script computes it
from the globbed path dataDir ++ "/" ++ name. -/
def fileSource (f : InputFile) : String :=
  derivedName (dataDir ++ "/" ++ f.name)

/-- The files of the directory the glob pattern matches. -/
def matchedFiles (files : List InputFile) : List InputFile :=
  files.filter (fun f => globMatches f.name)

/-- Lexicographic order on character lists by code point, the order
Python uses to compare strings. -/
def lexLe : List Char → List Char → Bool
  | [], _ => true
  | _ :: _, [] => false
  | c :: cs, d :: ds =>
    if c.toNat = d.toNat then lexLe cs ds else decide (c.toNat < d.toNat)

/-- resultFiles.sort() sorts the globbed path strings; since every path
is dataDir ++ "/" ++ name with the same directory prefix, path order
coincides with filename order, which is how the sort is modelled. -/
def fileLe (a b : InputFile) : Prop := lexLe a.name.toList b.name.toList = true

instance : DecidableRel fileLe := fun _ _ =>
  inferInstanceAs (Decidable (_ = true))

instance : IsTotal InputFile fileLe := by
  constructor
  intro a b
  show lexLe a.name.toList b.name.toList = true ∨ lexLe b.name.toList a.name.toList = true
  generalize a.name.toList = x
  generalize b.name.toList = y
  induction x generalizing y with
  | nil => left; rfl
  | cons c cs ih =>
    cases y with
    | nil => right; rfl
    | cons d ds =>
      rcases Nat.lt_trichotomy c.toNat d.toNat with h | h | h
      · left; simp [lexLe, Nat.ne_of_lt h, h]
      · rcases ih ds with h' | h'
        · left; simp [lexLe, h, h']
        · right; simp [lexLe, h.symm, h']
      · right; simp [lexLe, Nat.ne_of_lt h, h]

instance : IsTrans InputFile fileLe := by
  constructor
  intro a b c
  show lexLe a.name.toList b.name.toList = true →
    lexLe b.name.toList c.name.toList = true →
    lexLe a.name.toList c.name.toList = true
  generalize a.name.toList = x
  generalize b.name.toList = y
  generalize c.name.toList = z
  induction x generalizing y z with
  | nil => intro _ _; rfl
  | cons p ps ih =>
    intro h1 h2
    cases y with
    | nil => simp [lexLe] at h1
    | cons q qs =>
      cases z with
      | nil => simp [lexLe] at h2
      | cons r rs =>
        simp only [lexLe] at h1 h2 ⊢
        by_cases hpq : p.toNat = q.toNat
        · by_cases hqr : q.toNat = r.toNat
          · rw [if_pos hpq] at h1
            rw [if_pos hqr] at h2
            rw [if_pos (hpq.trans hqr)]
            exact ih qs rs h1 h2
          · simp only [if_neg hqr] at h2
            have hqr' : q.toNat < r.toNat := by simpa using h2
            have hpr : p.toNat < r.toNat := hpq ▸ hqr'
            simp [Nat.ne_of_lt hpr, hpr]
        · simp only [if_neg hpq] at h1
          have hpq' : p.toNat < q.toNat := by simpa using h1
          by_cases hqr : q.toNat = r.toNat
          · have hpr : p.toNat < r.toNat := hqr ▸ hpq'
            simp [Nat.ne_of_lt hpr, hpr]
          · simp only [if_neg hqr] at h2
            have hqr' : q.toNat < r.toNat := by simpa using h2
            have hpr : p.toNat < r.toNat := Nat.lt_trans hpq' hqr'
            simp [Nat.ne_of_lt hpr, hpr]

/-- The list of files the main loop iterates over, in iteration order:
the glob matches, sorted. -/
def processOrder (files : List InputFile) : List InputFile :=
  List.insertionSort fileLe (matchedFiles files)

/-! ### Script configuration

The script hardcodes three editable tables (labelsDict, ignoreList,
colorsDict) and the marker size; they are gathered in a configuration
record, with the concrete values of the repository below. -/

structure Config where
  labelsDict : List (String × String)
  ignoreList : List String
  colorsDict : List (String × String)
  markerSize : Nat

/-- The concrete configuration of src/benchmarking/plot.py. -/
def snowflurryConfig : Config :=
  { labelsDict := [("dataYao_target=1", "Yao")]
    ignoreList := []
    colorsDict := [("dataYao_target=1", "#C71585")]
    markerSize := 20 }

/-- gatesList of the script. -/
def gatesList : List String := ["X", "H", "T", "CNOT", "Y"]

/-- The default matplotlib property cycle of colors (ten entries,
cycled). -/
def defaultColorCycle : List String :=
  ["#1f77b4", "#ff7f0e", "#2ca02c", "#d62728", "#9467bd",
   "#8c564b", "#e377c2", "#7f7f7f", "#bcbd22", "#17becf"]

/-- The color ax.plot picks when the axes cycle stands at position n. -/
def cycleColor (n : Nat) : String :=
  defaultColorCycle.getD (n % defaultColorCycle.length) ""

/-! ### Matplotlib state

One axes object of the figure. ax.plot appends a line (advancing the
per-axes color cycle exactly when no explicit color is passed),
ax.scatter appends a point collection (with explicit color, so the
cycle does not move), and the styling calls set the flags. -/

structure Series where
  source : String
  label : String
  color : String
  xs : List Int
  ys : List Int
deriving DecidableEq

structure ScatterPts where
  source : String
  color : String
  xs : List Int
  ys : List Int
  size : Nat
deriving DecidableEq

structure AxisState where
  lines : List Series
  scatters : List ScatterPts
  cycleIdx : Nat
  yscaleLog : Bool
  legendOn : Bool
  title : Option String
  gridOn : Bool
  xlabel : Option String
  ylabel : Option String
deriving DecidableEq

def initAxis : AxisState :=
  { lines := [], scatters := [], cycleIdx := 0, yscaleLog := false,
    legendOn := false, title := none, gridOn := false,
    xlabel := none, ylabel := none }

/-- plt.subplots(2, 3) followed by axs.ravel() yields six axes; the
main loop zips them with the five gates, so cells 0..4 carry the gates
and cell 5 is never touched.  Axes are modelled as a total function on
cell indices; only indices below numAxes denote grid cells. -/
def numAxes : Nat := 6

structure ScriptState where
  axes : Nat → AxisState
  labelsDict : List (String × String)
  colorsDict : List (String × String)
  dataDict : List (String × Record)
  cycleLog : List (String × Nat × String)

/-- State at the top of the main loop: fresh axes, the configured label
and color tables, empty dataDict.  cycleLog is bookkeeping recording, in
order, each color consumed from a default cycle (source, cell, color). -/
def initState (cfg : Config) : ScriptState :=
  { axes := fun _ => initAxis
    labelsDict := cfg.labelsDict
    colorsDict := cfg.colorsDict
    dataDict := []
    cycleLog := [] }

/-- Python dict assignment d[k] = v: overwrite in place, else append,
preserving insertion order. -/
def dictSet (k : String) (v : α) : List (String × α) → List (String × α)
  | [] => [(k, v)]
  | (k', v') :: t => if k' = k then (k, v) :: t else (k', v') :: dictSet k v t

/-- One iteration of the inner loop [for ax, gate in zip(axs.ravel(),
gatesList)] for cell i and its gate, drawing source fName with parsed
record rec: when the gate is a key of the record, plot the line (picking
the next cycle color of the axes when the source has no recorded color,
and recording it), scatter with the recorded color, and style the
axes. -/
def stepGate (cfg : Config) (fName : String) (rec : Record) (i : Nat)
    (gate : String) (st : ScriptState) : ScriptState :=
  match rec.lookup gate with
  | none => st
  | some gd =>
    let ax0 := st.axes i
    let label := (st.labelsDict.lookup fName).getD fName
    let assigned := st.colorsDict.lookup fName
    let c := assigned.getD (cycleColor ax0.cycleIdx)
    { st with
      axes := fun j => if j = i then
        { ax0 with
          lines := ax0.lines ++ [⟨fName, label, c, gd.nqubits, gd.times⟩]
          scatters := ax0.scatters ++
            [⟨fName, c, gd.nqubits, gd.times, cfg.markerSize⟩]
          cycleIdx := if assigned.isSome then ax0.cycleIdx else ax0.cycleIdx + 1
          yscaleLog := true
          legendOn := true
          title := some (gate ++ " gate")
          gridOn := true
          xlabel := some "n qubits"
          ylabel := some "time (ns)" }
        else st.axes j
      colorsDict := if assigned.isSome then st.colorsDict
        else dictSet fName c st.colorsDict
      cycleLog := if assigned.isSome then st.cycleLog
        else st.cycleLog ++ [(fName, i, c)] }

/-- The inner loop over the remaining gates, cell index i onward. -/
def processGatesAux (cfg : Config) (fName : String) (rec : Record) :
    List String → Nat → ScriptState → ScriptState
  | [], _, st => st
  | g :: gs, i, st => processGatesAux cfg fName rec gs (i + 1)
      (stepGate cfg fName rec i g st)

/-- The whole inner loop of one file. -/
def processGates (cfg : Config) (fName : String) (rec : Record)
    (st : ScriptState) : ScriptState :=
  processGatesAux cfg fName rec gatesList 0 st

/-- One iteration of the main loop [for fPath in resultFiles]: derive
the source name, skip it when ignored, default its legend label,
then open and parse the file (json.load raising propagates as an
error value) and run the inner loop.  The print call writes to stdout
only and is not modelled. -/
def processFile (cfg : Config) (st : ScriptState) (f : InputFile) :
    Except String ScriptState :=
  let fName := fileSource f
  if fName ∈ cfg.ignoreList then .ok st
  else
    let labels := if (st.labelsDict.lookup fName).isSome then st.labelsDict
      else dictSet fName fName st.labelsDict
    match f.content with
    | none => .error (f.name ++ ": json.load failed")
    | some rec =>
      .ok (processGates cfg fName rec
        { st with labelsDict := labels, dataDict := dictSet fName rec st.dataDict })

/-- The main loop; an uncaught exception aborts the run. -/
def processFiles (cfg : Config) : List InputFile → ScriptState →
    Except String ScriptState
  | [], st => .ok st
  | f :: fs, st =>
    match processFile cfg st f with
    | .error e => .error e
    | .ok st' => processFiles cfg fs st'

/-- The whole script on the given directory contents: glob, sort,
main loop.  (plt.tight_layout and plt.show only render the figure state
already built.) -/
def runScript (cfg : Config) (files : List InputFile) :
    Except String ScriptState :=
  processFiles cfg (processOrder files) (initState cfg)

/-! ### Derived observables -/

/-- Cell i holds a line series of source s. -/
def hasLine (st : ScriptState) (i : Nat) (s : String) : Bool :=
  (st.axes i).lines.any (fun l => l.source == s)

/-- Cell i holds a scatter overlay of source s. -/
def hasScatter (st : ScriptState) (i : Nat) (s : String) : Bool :=
  (st.axes i).scatters.any (fun p => p.source == s)

/-- A line+scatter series for the pair (s, g) is drawn: some grid cell
carrying gate g holds both a line and a scatter of source s. -/
def seriesDrawn (st : ScriptState) (s g : String) : Prop :=
  ∃ i, i < gatesList.length ∧ gatesList.getD i "" = g ∧
    hasLine st i s = true ∧ hasScatter st i s = true

/-- Every color drawn for source s, across all grid cells, lines and
scatters alike. -/
def sourceColors (st : ScriptState) (s : String) : List String :=
  (List.range numAxes).flatMap (fun i =>
    (((st.axes i).lines.filter (fun l => l.source == s)).map (fun l => l.color)) ++
    (((st.axes i).scatters.filter (fun p => p.source == s)).map (fun p => p.color)))

/-- The full styling the script applies to a subplot of gate g. -/
def styled (ax : AxisState) (g : String) : Prop :=
  ax.yscaleLog = true ∧ ax.legendOn = true ∧ ax.title = some (g ++ " gate") ∧
    ax.gridOn = true ∧ ax.xlabel = some "n qubits" ∧ ax.ylabel = some "time (ns)"

/-- A file that will consume one slot of a default color cycle when
processed from the initial tables: not ignored, parseable, no explicit
color override for its source, and at least one of the five gates
present in its record. -/
def consumesCycle (cfg : Config) (f : InputFile) : Bool :=
  !(decide (fileSource f ∈ cfg.ignoreList)) &&
    (cfg.colorsDict.lookup (fileSource f)).isNone &&
    (match f.content with
     | none => false
     | some rec => gatesList.any (fun g => (rec.lookup g).isSome))

/-- Processing file f puts a series of source s onto grid cell j exactly
when s is the derived source name of f, that name is not ignored, the
file parses, and the gate of cell j is a key of its record. -/
def drawsCell (cfg : Config) (f : InputFile) (j : Nat) (s : String) : Prop :=
  fileSource f = s ∧ fileSource f ∉ cfg.ignoreList ∧
    ∃ rec, f.content = some rec ∧ j < gatesList.length ∧
      (rec.lookup (gatesList.getD j "")).isSome = true

/-- Color bookkeeping invariant: every drawn element carries exactly the
color the colorsDict table records for its source. -/
def colorsOk (st : ScriptState) : Prop :=
  ∀ i, (∀ l ∈ (st.axes i).lines, st.colorsDict.lookup l.source = some l.color) ∧
    (∀ p ∈ (st.axes i).scatters, st.colorsDict.lookup p.source = some p.color)

/-- Axes invariant: a grid cell is either untouched, or it is one of the
gate cells, holds at least one line, and carries the full styling of its
gate. -/
def axesOk (st : ScriptState) : Prop :=
  ∀ i, st.axes i = initAxis ∨
    (i < gatesList.length ∧ (st.axes i).lines ≠ [] ∧
      styled (st.axes i) (gatesList.getD i ""))

/-- Label bookkeeping invariant: the evolving labelsDict extends the
configured overrides only by identity entries, and every drawn line
carries the override of its source when one is configured and the
source name itself otherwise. -/
def labelsOk (cfg : Config) (st : ScriptState) : Prop :=
  (∀ k v, cfg.labelsDict.lookup k = some v → st.labelsDict.lookup k = some v) ∧
    (∀ k v, st.labelsDict.lookup k = some v →
      v = (cfg.labelsDict.lookup k).getD k) ∧
    (∀ i, ∀ l ∈ (st.axes i).lines,
      l.label = (cfg.labelsDict.lookup l.source).getD l.source)

/-! ### Concrete fixtures

Small concrete directory contents used to evaluate the script fully; the
states below are the successful run results. -/

def wfiles : List InputFile :=
  [⟨"b.json", some [("X", ⟨[1, 2], [10, 20]⟩)]⟩,
   ⟨"a.json", some [("X", ⟨[1, 2], [15, 25]⟩), ("Y", ⟨[1], [5]⟩)]⟩,
   ⟨"dataYao_target=1.json", some [("H", ⟨[1, 2], [100, 200]⟩)]⟩,
   ⟨"notes.txt", some []⟩]

def wstate : ScriptState :=
  match runScript snowflurryConfig wfiles with
  | .ok s => s
  | .error _ => initState snowflurryConfig

/-- The line the run above draws on the H cell for the overridden
source. -/
def wlineY : Series :=
  ⟨"dataYao_target=1", "Yao", "#C71585", [1, 2], [100, 200]⟩

/-- A configuration with a nonempty ignore list, exercising the skip
branch. -/
def wcfg : Config :=
  { labelsDict := [], ignoreList := ["bad"], colorsDict := [], markerSize := 20 }

def wfilesIgn : List InputFile :=
  [⟨"a.json", some [("X", ⟨[1], [3]⟩)]⟩,
   ⟨"bad.json", some [("X", ⟨[1], [4]⟩)]⟩]

def wstateIgn : ScriptState :=
  match runScript wcfg wfilesIgn with
  | .ok s => s
  | .error _ => initState wcfg

/-- A directory whose single file holds only the X gate, so the other
four gate cells are never styled. -/
def onlyXFiles : List InputFile :=
  [⟨"onlyx.json", some [("X", ⟨[1], [2]⟩)]⟩]

def onlyXState : ScriptState :=
  match runScript snowflurryConfig onlyXFiles with
  | .ok s => s
  | .error _ => initState snowflurryConfig

/-! ### Dictionary lemmas -/

theorem lookup_dictSet {α : Type} (k k' : String) (v : α)
    (d : List (String × α)) :
    (dictSet k v d).lookup k' = if k' = k then some v else d.lookup k' := by
  induction d with
  | nil =>
    by_cases h : k' = k
    · subst h; simp [dictSet, List.lookup]
    · simp [dictSet, List.lookup, h, beq_eq_false_iff_ne.mpr h]
  | cons e t ih =>
    obtain ⟨k₀, v₀⟩ := e
    by_cases h0 : k₀ = k
    · subst h0
      by_cases h : k' = k₀
      · subst h; simp [dictSet, List.lookup]
      · simp [dictSet, List.lookup, h, beq_eq_false_iff_ne.mpr h]
    · by_cases h : k' = k₀
      · have hne : k' ≠ k := fun hk => h0 (h.symm.trans hk)
        rw [if_neg hne]
        simp [dictSet, h0, List.lookup, beq_iff_eq.mpr h]
      · simp [dictSet, h0, List.lookup, beq_eq_false_iff_ne.mpr h, ih]

/-! ### Single gate-step characterizations -/

theorem hasLine_stepGate (cfg : Config) (f : String) (rec : Record)
    (i : Nat) (g : String) (st : ScriptState) (j : Nat) (s : String) :
    hasLine (stepGate cfg f rec i g st) j s = true ↔
      hasLine st j s = true ∨
        (j = i ∧ (rec.lookup g).isSome = true ∧ f = s) := by
  cases hg : rec.lookup g with
  | none => simp [stepGate, hg, hasLine]
  | some gd =>
    by_cases hij : j = i
    · subst hij
      simp [stepGate, hg, hasLine, beq_iff_eq]
    · simp [stepGate, hg, hasLine, hij]

theorem hasScatter_stepGate (cfg : Config) (f : String) (rec : Record)
    (i : Nat) (g : String) (st : ScriptState) (j : Nat) (s : String) :
    hasScatter (stepGate cfg f rec i g st) j s = true ↔
      hasScatter st j s = true ∨
        (j = i ∧ (rec.lookup g).isSome = true ∧ f = s) := by
  cases hg : rec.lookup g with
  | none => simp [stepGate, hg, hasScatter]
  | some gd =>
    by_cases hij : j = i
    · subst hij
      simp [stepGate, hg, hasScatter, beq_iff_eq]
    · simp [stepGate, hg, hasScatter, hij]

/-! ### Inner-loop characterizations -/

theorem hasLine_processGatesAux (cfg : Config) (f : String) (rec : Record) :
    ∀ (gs : List String) (i : Nat) (st : ScriptState) (j : Nat) (s : String),
    hasLine (processGatesAux cfg f rec gs i st) j s = true ↔
      hasLine st j s = true ∨
        (f = s ∧ ∃ k, k < gs.length ∧ i + k = j ∧
          (rec.lookup (gs.getD k "")).isSome = true) := by
  intro gs
  induction gs with
  | nil => intro i st j s; simp [processGatesAux]
  | cons g gs ih =>
    intro i st j s
    rw [processGatesAux, ih, hasLine_stepGate]
    constructor
    · rintro ((h | ⟨hj, hsome, hf⟩) | ⟨hf, k, hk, hik, hsome⟩)
      · exact Or.inl h
      · refine Or.inr ⟨hf, 0, ?_, ?_, ?_⟩
        · simp only [List.length_cons]; omega
        · omega
        · simpa using hsome
      · refine Or.inr ⟨hf, k + 1, ?_, ?_, ?_⟩
        · simp only [List.length_cons]; omega
        · omega
        · simpa using hsome
    · rintro (h | ⟨hf, k, hk, hik, hsome⟩)
      · exact Or.inl (Or.inl h)
      · cases k with
        | zero => exact Or.inl (Or.inr ⟨by omega, by simpa using hsome, hf⟩)
        | succ k =>
          refine Or.inr ⟨hf, k, ?_, ?_, ?_⟩
          · simp only [List.length_cons] at hk; omega
          · omega
          · simpa using hsome

theorem hasScatter_processGatesAux (cfg : Config) (f : String) (rec : Record) :
    ∀ (gs : List String) (i : Nat) (st : ScriptState) (j : Nat) (s : String),
    hasScatter (processGatesAux cfg f rec gs i st) j s = true ↔
      hasScatter st j s = true ∨
        (f = s ∧ ∃ k, k < gs.length ∧ i + k = j ∧
          (rec.lookup (gs.getD k "")).isSome = true) := by
  intro gs
  induction gs with
  | nil => intro i st j s; simp [processGatesAux]
  | cons g gs ih =>
    intro i st j s
    rw [processGatesAux, ih, hasScatter_stepGate]
    constructor
    · rintro ((h | ⟨hj, hsome, hf⟩) | ⟨hf, k, hk, hik, hsome⟩)
      · exact Or.inl h
      · refine Or.inr ⟨hf, 0, ?_, ?_, ?_⟩
        · simp only [List.length_cons]; omega
        · omega
        · simpa using hsome
      · refine Or.inr ⟨hf, k + 1, ?_, ?_, ?_⟩
        · simp only [List.length_cons]; omega
        · omega
        · simpa using hsome
    · rintro (h | ⟨hf, k, hk, hik, hsome⟩)
      · exact Or.inl (Or.inl h)
      · cases k with
        | zero => exact Or.inl (Or.inr ⟨by omega, by simpa using hsome, hf⟩)
        | succ k =>
          refine Or.inr ⟨hf, k, ?_, ?_, ?_⟩
          · simp only [List.length_cons] at hk; omega
          · omega
          · simpa using hsome

/-! ### Per-file and main-loop characterizations of drawn series -/

theorem hasLine_processFile {cfg : Config} {st st' : ScriptState}
    {f : InputFile} (h : processFile cfg st f = .ok st') (j : Nat) (s : String) :
    hasLine st' j s = true ↔ hasLine st j s = true ∨ drawsCell cfg f j s := by
  unfold processFile at h
  by_cases hig : fileSource f ∈ cfg.ignoreList
  · rw [if_pos hig] at h
    injection h with h
    subst h
    simp only [drawsCell]
    tauto
  · rw [if_neg hig] at h
    cases hc : f.content with
    | none => rw [hc] at h; cases h
    | some rec =>
      rw [hc] at h
      injection h with h
      subst h
      rw [processGates, hasLine_processGatesAux]
      have hax : hasLine { st with labelsDict := _, dataDict := _ } j s = hasLine st j s := rfl
      rw [hax]
      constructor
      · rintro (h0 | ⟨hf, k, hk, hik, hsome⟩)
        · exact Or.inl h0
        · refine Or.inr ⟨hf, hig, rec, hc, ?_, ?_⟩
          · omega
          · have : k = j := by omega
            subst this; exact hsome
      · rintro (h0 | ⟨hf, _, rec', hrec', hj, hsome⟩)
        · exact Or.inl h0
        · have hrr : rec' = rec := by
            rw [hc] at hrec'
            injection hrec' with hv
            exact hv.symm
          subst hrr
          exact Or.inr ⟨hf, j, hj, by omega, hsome⟩

theorem hasScatter_processFile {cfg : Config} {st st' : ScriptState}
    {f : InputFile} (h : processFile cfg st f = .ok st') (j : Nat) (s : String) :
    hasScatter st' j s = true ↔ hasScatter st j s = true ∨ drawsCell cfg f j s := by
  unfold processFile at h
  by_cases hig : fileSource f ∈ cfg.ignoreList
  · rw [if_pos hig] at h
    injection h with h
    subst h
    simp only [drawsCell]
    tauto
  · rw [if_neg hig] at h
    cases hc : f.content with
    | none => rw [hc] at h; cases h
    | some rec =>
      rw [hc] at h
      injection h with h
      subst h
      rw [processGates, hasScatter_processGatesAux]
      have hax : hasScatter { st with labelsDict := _, dataDict := _ } j s = hasScatter st j s := rfl
      rw [hax]
      constructor
      · rintro (h0 | ⟨hf, k, hk, hik, hsome⟩)
        · exact Or.inl h0
        · refine Or.inr ⟨hf, hig, rec, hc, ?_, ?_⟩
          · omega
          · have : k = j := by omega
            subst this; exact hsome
      · rintro (h0 | ⟨hf, _, rec', hrec', hj, hsome⟩)
        · exact Or.inl h0
        · have hrr : rec' = rec := by
            rw [hc] at hrec'
            injection hrec' with hv
            exact hv.symm
          subst hrr
          exact Or.inr ⟨hf, j, hj, by omega, hsome⟩

theorem hasLine_processFiles {cfg : Config} :
    ∀ (fs : List InputFile) (st st' : ScriptState),
    processFiles cfg fs st = .ok st' → ∀ (j : Nat) (s : String),
    (hasLine st' j s = true ↔
      hasLine st j s = true ∨ ∃ f ∈ fs, drawsCell cfg f j s) := by
  intro fs
  induction fs with
  | nil =>
    intro st st' h j s
    rw [processFiles] at h
    injection h with h
    subst h
    simp
  | cons f fs ih =>
    intro st st' h j s
    rw [processFiles] at h
    cases hpf : processFile cfg st f with
    | error e => rw [hpf] at h; cases h
    | ok st₁ =>
      rw [hpf] at h
      rw [ih _ _ h j s, hasLine_processFile hpf j s]
      simp only [List.mem_cons]
      constructor
      · rintro ((h0 | hd) | ⟨g, hg, hd⟩)
        · exact Or.inl h0
        · exact Or.inr ⟨f, Or.inl rfl, hd⟩
        · exact Or.inr ⟨g, Or.inr hg, hd⟩
      · rintro (h0 | ⟨g, (rfl | hg), hd⟩)
        · exact Or.inl (Or.inl h0)
        · exact Or.inl (Or.inr hd)
        · exact Or.inr ⟨g, hg, hd⟩

theorem hasScatter_processFiles {cfg : Config} :
    ∀ (fs : List InputFile) (st st' : ScriptState),
    processFiles cfg fs st = .ok st' → ∀ (j : Nat) (s : String),
    (hasScatter st' j s = true ↔
      hasScatter st j s = true ∨ ∃ f ∈ fs, drawsCell cfg f j s) := by
  intro fs
  induction fs with
  | nil =>
    intro st st' h j s
    rw [processFiles] at h
    injection h with h
    subst h
    simp
  | cons f fs ih =>
    intro st st' h j s
    rw [processFiles] at h
    cases hpf : processFile cfg st f with
    | error e => rw [hpf] at h; cases h
    | ok st₁ =>
      rw [hpf] at h
      rw [ih _ _ h j s, hasScatter_processFile hpf j s]
      simp only [List.mem_cons]
      constructor
      · rintro ((h0 | hd) | ⟨g, hg, hd⟩)
        · exact Or.inl h0
        · exact Or.inr ⟨f, Or.inl rfl, hd⟩
        · exact Or.inr ⟨g, Or.inr hg, hd⟩
      · rintro (h0 | ⟨g, (rfl | hg), hd⟩)
        · exact Or.inl (Or.inl h0)
        · exact Or.inl (Or.inr hd)
        · exact Or.inr ⟨g, hg, hd⟩

theorem hasLine_initState (cfg : Config) (j : Nat) (s : String) :
    hasLine (initState cfg) j s = false := rfl

theorem hasScatter_initState (cfg : Config) (j : Nat) (s : String) :
    hasScatter (initState cfg) j s = false := rfl

/-- C1: for a run that completes, a line+scatter series is drawn for the
pair (source, gate) exactly when the gate is one of the five fixed gate
names, some glob-matched file has that derived source name with the gate
key present in its parsed record, and that source name is not in the
ignore set. -/
theorem c1 (cfg : Config) (files : List InputFile) (st : ScriptState)
    (h : runScript cfg files = .ok st) (s g : String) :
    seriesDrawn st s g ↔
      (g ∈ gatesList ∧ s ∉ cfg.ignoreList ∧
        ∃ f ∈ matchedFiles files, fileSource f = s ∧
          ∃ rec, f.content = some rec ∧ (rec.lookup g).isSome = true) := by
  unfold runScript at h
  have hperm := List.perm_insertionSort fileLe (matchedFiles files)
  constructor
  · rintro ⟨i, hi, hgi, hline, hsc⟩
    rw [hasLine_processFiles _ _ _ h i s] at hline
    rcases hline with h0 | ⟨f, hf, hdc⟩
    · rw [hasLine_initState] at h0; cases h0
    · obtain ⟨hsrc, hig, rec, hrec, hjlen, hlook⟩ := hdc
      refine ⟨?_, ?_, f, ?_, hsrc, rec, hrec, ?_⟩
      · rw [← hgi, List.getD_eq_getElem gatesList "" hi]
        exact List.getElem_mem hi
      · rw [← hsrc]; exact hig
      · exact hperm.mem_iff.mp hf
      · rw [← hgi]; exact hlook
  · rintro ⟨hg, hs, f, hf, hsrc, rec, hrec, hlook⟩
    obtain ⟨i, hi, hgi⟩ := List.mem_iff_getElem.mp hg
    have hgd : gatesList.getD i "" = g := by
      rw [List.getD_eq_getElem gatesList "" hi]; exact hgi
    have hdc : drawsCell cfg f i s :=
      ⟨hsrc, hsrc ▸ hs, rec, hrec, hi, by rw [hgd]; exact hlook⟩
    refine ⟨i, hi, hgd, ?_, ?_⟩
    · rw [hasLine_processFiles _ _ _ h i s]
      exact Or.inr ⟨f, hperm.mem_iff.mpr hf, hdc⟩
    · rw [hasScatter_processFiles _ _ _ h i s]
      exact Or.inr ⟨f, hperm.mem_iff.mpr hf, hdc⟩

theorem c1_witness : seriesDrawn wstate "a" "X" :=
  (c1 snowflurryConfig wfiles wstate (by rfl) "a" "X").mpr
    ⟨by decide, by decide,
      ⟨"a.json", some [("X", ⟨[1, 2], [15, 25]⟩), ("Y", ⟨[1], [5]⟩)]⟩,
      by decide, by decide,
      [("X", ⟨[1, 2], [15, 25]⟩), ("Y", ⟨[1], [5]⟩)], by decide, by decide⟩

/-! ### Color invariant chain -/

theorem colorsOk_initState (cfg : Config) : colorsOk (initState cfg) := by
  intro i
  constructor
  · intro l hl; simp [initState, initAxis] at hl
  · intro p hp; simp [initState, initAxis] at hp

theorem colorsOk_stepGate {cfg : Config} {f : String} {rec : Record}
    {i : Nat} {g : String} {st : ScriptState} (h : colorsOk st) :
    colorsOk (stepGate cfg f rec i g st) := by
  cases hg : rec.lookup g with
  | none => simpa [stepGate, hg] using h
  | some gd =>
    cases hasn : st.colorsDict.lookup f with
    | some c0 =>
      intro j
      constructor
      · intro l hl
        by_cases hji : j = i
        · subst hji
          simp only [stepGate, hg, hasn, Option.getD_some, Option.isSome_some,
            if_true, if_pos rfl] at hl ⊢
          rcases List.mem_append.mp hl with hold | hnew
          · exact (h j).1 l hold
          · rw [List.mem_singleton] at hnew
            subst hnew
            exact hasn
        · simp only [stepGate, hg, hasn, Option.isSome_some, if_true,
            if_neg hji] at hl ⊢
          exact (h j).1 l hl
      · intro p hp
        by_cases hji : j = i
        · subst hji
          simp only [stepGate, hg, hasn, Option.getD_some, Option.isSome_some,
            if_true, if_pos rfl] at hp ⊢
          rcases List.mem_append.mp hp with hold | hnew
          · exact (h j).2 p hold
          · rw [List.mem_singleton] at hnew
            subst hnew
            exact hasn
        · simp only [stepGate, hg, hasn, Option.isSome_some, if_true,
            if_neg hji] at hp ⊢
          exact (h j).2 p hp
    | none =>
      have hpres : ∀ (s : String) (c' : String),
          st.colorsDict.lookup s = some c' →
          (dictSet f (cycleColor (st.axes i).cycleIdx) st.colorsDict).lookup s
            = some c' := by
        intro s c' hs
        rw [lookup_dictSet]
        by_cases hsf : s = f
        · subst hsf; rw [hasn] at hs; cases hs
        · rw [if_neg hsf]; exact hs
      intro j
      constructor
      · intro l hl
        by_cases hji : j = i
        · subst hji
          simp only [stepGate, hg, hasn, Option.getD_none, Option.isSome_none,
            Bool.false_eq_true, if_false, if_pos rfl] at hl ⊢
          rcases List.mem_append.mp hl with hold | hnew
          · exact hpres _ _ ((h j).1 l hold)
          · rw [List.mem_singleton] at hnew
            subst hnew
            rw [lookup_dictSet]
            simp
        · simp only [stepGate, hg, hasn, Option.getD_none, Option.isSome_none,
            Bool.false_eq_true, if_false, if_neg hji] at hl ⊢
          exact hpres _ _ ((h j).1 l hl)
      · intro p hp
        by_cases hji : j = i
        · subst hji
          simp only [stepGate, hg, hasn, Option.getD_none, Option.isSome_none,
            Bool.false_eq_true, if_false, if_pos rfl] at hp ⊢
          rcases List.mem_append.mp hp with hold | hnew
          · exact hpres _ _ ((h j).2 p hold)
          · rw [List.mem_singleton] at hnew
            subst hnew
            rw [lookup_dictSet]
            simp
        · simp only [stepGate, hg, hasn, Option.getD_none, Option.isSome_none,
            Bool.false_eq_true, if_false, if_neg hji] at hp ⊢
          exact hpres _ _ ((h j).2 p hp)

theorem colorsOk_processGatesAux {cfg : Config} {f : String} {rec : Record} :
    ∀ (gs : List String) (i : Nat) (st : ScriptState), colorsOk st →
    colorsOk (processGatesAux cfg f rec gs i st) := by
  intro gs
  induction gs with
  | nil => intro i st h; exact h
  | cons g gs ih =>
    intro i st h
    rw [processGatesAux]
    exact ih _ _ (colorsOk_stepGate h)

theorem colorsOk_processFile {cfg : Config} {st st' : ScriptState}
    {f : InputFile} (h : processFile cfg st f = .ok st') (hok : colorsOk st) :
    colorsOk st' := by
  unfold processFile at h
  by_cases hig : fileSource f ∈ cfg.ignoreList
  · rw [if_pos hig] at h
    injection h with h
    subst h
    exact hok
  · rw [if_neg hig] at h
    cases hc : f.content with
    | none => rw [hc] at h; cases h
    | some rec =>
      rw [hc] at h
      injection h with h
      subst h
      exact colorsOk_processGatesAux _ _ _ hok

theorem colorsOk_processFiles {cfg : Config} :
    ∀ (fs : List InputFile) (st st' : ScriptState),
    processFiles cfg fs st = .ok st' → colorsOk st → colorsOk st' := by
  intro fs
  induction fs with
  | nil =>
    intro st st' h hok
    rw [processFiles] at h
    injection h with h
    subst h
    exact hok
  | cons f fs ih =>
    intro st st' h hok
    rw [processFiles] at h
    cases hpf : processFile cfg st f with
    | error e => rw [hpf] at h; cases h
    | ok st₁ =>
      rw [hpf] at h
      exact ih _ _ h (colorsOk_processFile hpf hok)

/-- C2: in a completed run, every line and every scatter overlay drawn
for a source, on any gate cell, carries exactly the single color the
color table finally records for that source; hence the scatter color of
a gate equals the line color of that gate and all gates of one source
share one stable color. -/
theorem c2 (cfg : Config) (files : List InputFile) (st : ScriptState)
    (h : runScript cfg files = .ok st) (s c : String)
    (hc : c ∈ sourceColors st s) : st.colorsDict.lookup s = some c := by
  have hok : colorsOk st :=
    colorsOk_processFiles _ _ _ h (colorsOk_initState cfg)
  simp only [sourceColors, List.mem_flatMap] at hc
  obtain ⟨i, _, hc⟩ := hc
  rcases List.mem_append.mp hc with hl | hp
  · simp only [List.mem_map, List.mem_filter] at hl
    obtain ⟨l, ⟨hl, hsrc⟩, hcol⟩ := hl
    rw [beq_iff_eq] at hsrc
    subst hcol
    rw [← hsrc]
    exact (hok i).1 l hl
  · simp only [List.mem_map, List.mem_filter] at hp
    obtain ⟨p, ⟨hp, hsrc⟩, hcol⟩ := hp
    rw [beq_iff_eq] at hsrc
    subst hcol
    rw [← hsrc]
    exact (hok i).2 p hp

theorem c2_witness : wstate.colorsDict.lookup "a" = some "#1f77b4" :=
  c2 snowflurryConfig wfiles wstate (by rfl) "a" "#1f77b4" (by decide)

/-! ### Axes styling invariant chain -/

theorem axesOk_initState (cfg : Config) : axesOk (initState cfg) := by
  intro i
  left
  rfl

theorem axesOk_stepGate {cfg : Config} {f : String} {rec : Record}
    {i : Nat} {g : String} {st : ScriptState}
    (hi : i < gatesList.length) (hgi : gatesList.getD i "" = g)
    (h : axesOk st) : axesOk (stepGate cfg f rec i g st) := by
  cases hg : rec.lookup g with
  | none => simpa [stepGate, hg] using h
  | some gd =>
    intro j
    by_cases hji : j = i
    · subst hji
      right
      refine ⟨hi, ?_, ?_⟩
      · simp [stepGate, hg]
      · rw [List.getD_eq_getElem _ _ hi] at hgi ⊢
        rw [hgi]
        simp [stepGate, hg, styled]
    · have hax : (stepGate cfg f rec i g st).axes j = st.axes j := by
        simp [stepGate, hg, hji]
      rw [hax]
      exact h j

theorem axesOk_processGatesAux {cfg : Config} {f : String} {rec : Record} :
    ∀ (gs : List String) (i : Nat) (st : ScriptState),
    gatesList.drop i = gs → axesOk st →
    axesOk (processGatesAux cfg f rec gs i st) := by
  intro gs
  induction gs with
  | nil => intro i st _ h; exact h
  | cons g gs ih =>
    intro i st hdrop h
    rw [processGatesAux]
    have hi : i < gatesList.length := by
      by_contra hle
      push_neg at hle
      rw [List.drop_eq_nil_of_le hle] at hdrop
      cases hdrop
    have hgi : gatesList.getD i "" = g := by
      have h0 : (gatesList.drop i).headD "" = g := by rw [hdrop]; rfl
      rw [List.headD_eq_head?, List.head?_drop,
        List.getElem?_eq_getElem hi] at h0
      rw [List.getD_eq_getElem _ _ hi]
      simpa using h0
    have hnext : gatesList.drop (i + 1) = gs := by
      have hd := congrArg (List.drop 1) hdrop
      rw [List.drop_drop] at hd
      simpa using hd
    exact ih _ _ hnext (axesOk_stepGate hi hgi h)

theorem axesOk_processFile {cfg : Config} {st st' : ScriptState}
    {f : InputFile} (h : processFile cfg st f = .ok st') (hok : axesOk st) :
    axesOk st' := by
  unfold processFile at h
  by_cases hig : fileSource f ∈ cfg.ignoreList
  · rw [if_pos hig] at h
    injection h with h
    subst h
    exact hok
  · rw [if_neg hig] at h
    cases hc : f.content with
    | none => rw [hc] at h; cases h
    | some rec =>
      rw [hc] at h
      injection h with h
      subst h
      exact axesOk_processGatesAux _ _ _ rfl hok

theorem axesOk_processFiles {cfg : Config} :
    ∀ (fs : List InputFile) (st st' : ScriptState),
    processFiles cfg fs st = .ok st' → axesOk st → axesOk st' := by
  intro fs
  induction fs with
  | nil =>
    intro st st' h hok
    rw [processFiles] at h
    injection h with h
    subst h
    exact hok
  | cons f fs ih =>
    intro st st' h hok
    rw [processFiles] at h
    cases hpf : processFile cfg st f with
    | error e => rw [hpf] at h; cases h
    | ok st₁ =>
      rw [hpf] at h
      exact ih _ _ h (axesOk_processFile hpf hok)

/-- C3 counterexample: a completed run on a single file holding only the
X gate leaves the H subplot (cell 1) without log scale, legend or title,
so it is false that after the run every one of the five gate subplots
carries the full styling. -/
theorem c3_counterexample :
    runScript snowflurryConfig onlyXFiles = .ok onlyXState ∧
      gatesList.getD 1 "" = "H" ∧
      (onlyXState.axes 1).yscaleLog = false ∧
      (onlyXState.axes 1).title = none ∧
      (onlyXState.axes 1).legendOn = false :=
  ⟨by rfl, by decide, by decide, by decide, by decide⟩

/-- C3 (amended): after a completed run, every grid cell on which at
least one series was drawn is one of the five gate cells and carries a
logarithmic y-axis scale, a legend, the title of its gate suffixed with
" gate", a grid, and both axis labels; a cell with no drawn series —
gate cells no source provides, and the sixth excess cell alike — is
left in its initial blank state. -/
theorem c3 (cfg : Config) (files : List InputFile) (st : ScriptState)
    (h : runScript cfg files = .ok st) (i : Nat) :
    ((st.axes i).lines ≠ [] →
        i < gatesList.length ∧ styled (st.axes i) (gatesList.getD i "")) ∧
      ((st.axes i).lines = [] → st.axes i = initAxis) ∧
      (gatesList.length ≤ i → st.axes i = initAxis) := by
  have hok : axesOk st :=
    axesOk_processFiles _ _ _ h (axesOk_initState cfg)
  rcases hok i with hinit | ⟨hi, hne, hsty⟩
  · have hemp : (st.axes i).lines = [] := by rw [hinit]; rfl
    exact ⟨fun hne => absurd hemp hne, fun _ => hinit, fun _ => hinit⟩
  · exact ⟨fun _ => ⟨hi, hsty⟩, fun he => absurd he hne,
      fun hle => absurd hi (not_lt.mpr hle)⟩

theorem c3_witness :
    0 < gatesList.length ∧ styled (wstate.axes 0) (gatesList.getD 0 "") :=
  (c3 snowflurryConfig wfiles wstate (by rfl) 0).1 (by decide)

/-! ### Label invariant chain -/

theorem labelsOk_initState (cfg : Config) : labelsOk cfg (initState cfg) := by
  refine ⟨fun k v hv => hv, fun k v hv => ?_, fun i l hl => ?_⟩
  · have hv' : cfg.labelsDict.lookup k = some v := hv
    rw [hv']
    rfl
  · simp [initState, initAxis] at hl

theorem labelsOk_stepGate {cfg : Config} {f : String} {rec : Record}
    {i : Nat} {g : String} {st : ScriptState} (h : labelsOk cfg st) :
    labelsOk cfg (stepGate cfg f rec i g st) := by
  cases hg : rec.lookup g with
  | none => simpa [stepGate, hg] using h
  | some gd =>
    obtain ⟨h1, h2, h3⟩ := h
    have hlab : (stepGate cfg f rec i g st).labelsDict = st.labelsDict := by
      simp [stepGate, hg]
    refine ⟨fun k v hv => by rw [hlab]; exact h1 k v hv,
      fun k v hv => h2 k v (by rw [hlab] at hv; exact hv),
      fun j l hl => ?_⟩
    by_cases hji : j = i
    · subst hji
      simp only [stepGate, hg, if_pos rfl] at hl
      rcases List.mem_append.mp hl with hold | hnew
      · exact h3 j l hold
      · rw [List.mem_singleton] at hnew
        subst hnew
        show (st.labelsDict.lookup f).getD f = (cfg.labelsDict.lookup f).getD f
        cases hcf : cfg.labelsDict.lookup f with
        | some v => rw [h1 f v hcf]
        | none =>
          cases hst : st.labelsDict.lookup f with
          | some w =>
            have := h2 f w hst
            rw [hcf] at this
            simp only [Option.getD_some, Option.getD_none]
            simpa using this
          | none => rfl
    · simp only [stepGate, hg, if_neg hji] at hl
      exact h3 j l hl

theorem labelsOk_processGatesAux {cfg : Config} {f : String} {rec : Record} :
    ∀ (gs : List String) (i : Nat) (st : ScriptState), labelsOk cfg st →
    labelsOk cfg (processGatesAux cfg f rec gs i st) := by
  intro gs
  induction gs with
  | nil => intro i st h; exact h
  | cons g gs ih =>
    intro i st h
    rw [processGatesAux]
    exact ih _ _ (labelsOk_stepGate h)

theorem labelsOk_processFile {cfg : Config} {st st' : ScriptState}
    {f : InputFile} (h : processFile cfg st f = .ok st') (hok : labelsOk cfg st) :
    labelsOk cfg st' := by
  unfold processFile at h
  by_cases hig : fileSource f ∈ cfg.ignoreList
  · rw [if_pos hig] at h
    injection h with h
    subst h
    exact hok
  · rw [if_neg hig] at h
    cases hc : f.content with
    | none => rw [hc] at h; cases h
    | some rec =>
      rw [hc] at h
      injection h with h
      subst h
      refine labelsOk_processGatesAux _ _ _ ?_
      obtain ⟨h1, h2, h3⟩ := hok
      cases hst : st.labelsDict.lookup (fileSource f) with
      | some w =>
        refine ⟨fun k v hv => ?_, fun k v hv => ?_, fun i l hl => h3 i l hl⟩
        · simpa [hst] using h1 k v hv
        · exact h2 k v (by simpa [hst] using hv)
      | none =>
        have hcfg : cfg.labelsDict.lookup (fileSource f) = none := by
          cases hcf : cfg.labelsDict.lookup (fileSource f) with
          | none => rfl
          | some v =>
            have := h1 _ _ hcf
            rw [hst] at this
            cases this
        refine ⟨fun k v hv => ?_, fun k v hv => ?_, fun i l hl => h3 i l hl⟩
        · show (dictSet (fileSource f) (fileSource f) st.labelsDict).lookup k
            = some v
          rw [lookup_dictSet]
          by_cases hkf : k = fileSource f
          · subst hkf
            rw [hcfg] at hv
            cases hv
          · rw [if_neg hkf]
            exact h1 k v hv
        · have hv' : (dictSet (fileSource f) (fileSource f)
              st.labelsDict).lookup k = some v := by
            simpa [hst] using hv
          rw [lookup_dictSet] at hv'
          by_cases hkf : k = fileSource f
          · rw [if_pos hkf] at hv'
            injection hv' with hv'
            subst hkf
            rw [hcfg, ← hv']
            rfl
          · rw [if_neg hkf] at hv'
            exact h2 k v hv'

theorem labelsOk_processFiles {cfg : Config} :
    ∀ (fs : List InputFile) (st st' : ScriptState),
    processFiles cfg fs st = .ok st' → labelsOk cfg st → labelsOk cfg st' := by
  intro fs
  induction fs with
  | nil =>
    intro st st' h hok
    rw [processFiles] at h
    injection h with h
    subst h
    exact hok
  | cons f fs ih =>
    intro st st' h hok
    rw [processFiles] at h
    cases hpf : processFile cfg st f with
    | error e => rw [hpf] at h; cases h
    | ok st₁ =>
      rw [hpf] at h
      exact ih _ _ h (labelsOk_processFile hpf hok)

/-- C6: in a completed run, the legend label of every drawn series is
the override from the label table when its derived source name is a key
of that table, and the derived source name itself, unchanged,
otherwise. -/
theorem c6 (cfg : Config) (files : List InputFile) (st : ScriptState)
    (h : runScript cfg files = .ok st) (i : Nat) (l : Series)
    (hl : l ∈ (st.axes i).lines) :
    l.label = (cfg.labelsDict.lookup l.source).getD l.source :=
  (labelsOk_processFiles _ _ _ h (labelsOk_initState cfg)).2.2 i l hl

theorem c6_witness :
    wlineY.label =
      (snowflurryConfig.labelsDict.lookup wlineY.source).getD wlineY.source :=
  c6 snowflurryConfig wfiles wstate (by rfl) 1 wlineY (by decide)

/-! ### Sort and filter commute (insertion sort is stable) -/

theorem orderedInsert_cons_of_forall {α : Type} {r : α → α → Prop}
    [DecidableRel r] {a : α} :
    ∀ {l : List α}, (∀ x ∈ l, r a x) → List.orderedInsert r a l = a :: l
  | [], _ => rfl
  | b :: l, h => by
    rw [List.orderedInsert, if_pos (h b (List.mem_cons_self b l))]

theorem filter_orderedInsert_pos {α : Type} {r : α → α → Prop}
    [DecidableRel r] [IsTrans α r] (p : α → Bool) {a : α} (hpa : p a = true) :
    ∀ {l : List α}, l.Sorted r →
    (List.orderedInsert r a l).filter p = List.orderedInsert r a (l.filter p) := by
  intro l
  induction l with
  | nil => intro _; simp [List.orderedInsert, hpa]
  | cons b l ih =>
    intro hs
    have hbl := (List.sorted_cons.mp hs).1
    have hsl := (List.sorted_cons.mp hs).2
    rw [List.orderedInsert]
    by_cases hab : r a b
    · rw [if_pos hab]
      by_cases hpb : p b = true
      · rw [List.filter_cons_of_pos hpa, List.filter_cons_of_pos hpb,
          List.orderedInsert, if_pos hab]
      · have hall : ∀ x ∈ l.filter p, r a x := by
          intro x hx
          exact IsTrans.trans a b x hab (hbl x (List.mem_of_mem_filter hx))
        rw [List.filter_cons_of_pos hpa, List.filter_cons_of_neg hpb,
          orderedInsert_cons_of_forall hall]
    · rw [if_neg hab]
      by_cases hpb : p b = true
      · rw [List.filter_cons_of_pos hpb, ih hsl, List.filter_cons_of_pos hpb,
          List.orderedInsert, if_neg hab]
      · rw [List.filter_cons_of_neg hpb, ih hsl, List.filter_cons_of_neg hpb]

theorem filter_orderedInsert_neg {α : Type} {r : α → α → Prop}
    [DecidableRel r] (p : α → Bool) {a : α} (hpa : p a = false) :
    ∀ (l : List α),
    (List.orderedInsert r a l).filter p = l.filter p := by
  intro l
  induction l with
  | nil => simp [List.orderedInsert, hpa]
  | cons b l ih =>
    rw [List.orderedInsert]
    by_cases hab : r a b
    · rw [if_pos hab, List.filter_cons_of_neg (by simp [hpa])]
    · rw [if_neg hab]
      by_cases hpb : p b = true
      · rw [List.filter_cons_of_pos hpb, List.filter_cons_of_pos hpb, ih]
      · rw [List.filter_cons_of_neg hpb, List.filter_cons_of_neg hpb, ih]

theorem insertionSort_filter {α : Type} {r : α → α → Prop}
    [DecidableRel r] [IsTotal α r] [IsTrans α r] (p : α → Bool) :
    ∀ (l : List α),
    (List.insertionSort r l).filter p = List.insertionSort r (l.filter p) := by
  intro l
  induction l with
  | nil => rfl
  | cons a l ih =>
    rw [List.insertionSort]
    by_cases hpa : p a = true
    · rw [List.filter_cons_of_pos hpa, filter_orderedInsert_pos p hpa
        (List.sorted_insertionSort r l), ih, List.insertionSort]
    · rw [List.filter_cons_of_neg hpa,
        filter_orderedInsert_neg p (by simpa using hpa), ih]

/-! ### The ignore list skips whole files -/

theorem processFile_ignored {cfg : Config} {st : ScriptState} {f : InputFile}
    (h : fileSource f ∈ cfg.ignoreList) : processFile cfg st f = .ok st := by
  rw [processFile]
  exact if_pos h

theorem processFiles_filter_ignored {cfg : Config} :
    ∀ (fs : List InputFile) (st : ScriptState),
    processFiles cfg
        (fs.filter (fun f => !(decide (fileSource f ∈ cfg.ignoreList)))) st =
      processFiles cfg fs st := by
  intro fs
  induction fs with
  | nil => intro st; rfl
  | cons f fs ih =>
    intro st
    by_cases hig : fileSource f ∈ cfg.ignoreList
    · rw [List.filter_cons, if_neg (by simp [hig]), ih]
      have hstep : processFiles cfg (f :: fs) st = processFiles cfg fs st := by
        rw [processFiles, processFile_ignored hig]
      rw [hstep]
    · rw [List.filter_cons, if_pos (by simp [hig]), processFiles, processFiles]
      cases hpf : processFile cfg st f with
      | error e => rfl
      | ok st₁ => exact ih st₁

theorem matchedFiles_filter (files : List InputFile) (q : InputFile → Bool) :
    matchedFiles (files.filter q) = (matchedFiles files).filter q := by
  unfold matchedFiles
  rw [List.filter_filter, List.filter_filter]
  exact List.filter_congr (fun x _ => Bool.and_comm _ _)

theorem runScript_filter_ignored (cfg : Config) (files : List InputFile) :
    runScript cfg
        (files.filter (fun f => !(decide (fileSource f ∈ cfg.ignoreList)))) =
      runScript cfg files := by
  unfold runScript processOrder
  rw [matchedFiles_filter, ← insertionSort_filter, processFiles_filter_ignored]

/-- C7: removing every file whose derived source name is on the ignore
list leaves the entire final state of the run unchanged — drawn series,
color table, and the log of consumed color-cycle slots alike — and in a
completed run no grid cell holds a line or a scatter of an ignored
source. -/
theorem c7 (cfg : Config) (files : List InputFile) :
    runScript cfg
        (files.filter (fun f => !(decide (fileSource f ∈ cfg.ignoreList)))) =
      runScript cfg files ∧
    ∀ st, runScript cfg files = .ok st → ∀ (i : Nat) (s : String),
      s ∈ cfg.ignoreList → hasLine st i s = false ∧ hasScatter st i s = false := by
  refine ⟨runScript_filter_ignored cfg files, ?_⟩
  intro st h i s hs
  unfold runScript at h
  constructor
  · by_contra hb
    rw [Bool.not_eq_false, hasLine_processFiles _ _ _ h i s] at hb
    rcases hb with h0 | ⟨f, _, hsrc, hig, _⟩
    · rw [hasLine_initState] at h0; cases h0
    · exact hig (hsrc ▸ hs)
  · by_contra hb
    rw [Bool.not_eq_false, hasScatter_processFiles _ _ _ h i s] at hb
    rcases hb with h0 | ⟨f, _, hsrc, hig, _⟩
    · rw [hasScatter_initState] at h0; cases h0
    · exact hig (hsrc ▸ hs)

theorem c7_witness :
    hasLine wstateIgn 0 "bad" = false ∧ hasScatter wstateIgn 0 "bad" = false :=
  (c7 wcfg wfilesIgn).2 wstateIgn (by rfl) 0 "bad" (by decide)

/-- C9: a file whose derived source name is on the ignore list is
skipped before its contents are ever read: even a file that cannot be
read or parsed (content none) leaves the whole run exactly as if the
file were absent, so it cannot abort the run. -/
theorem c9 (cfg : Config) (l1 l2 : List InputFile) (n : String)
    (h : fileSource ⟨n, none⟩ ∈ cfg.ignoreList) :
    runScript cfg (l1 ++ ⟨n, none⟩ :: l2) = runScript cfg (l1 ++ l2) := by
  rw [← runScript_filter_ignored cfg (l1 ++ ⟨n, none⟩ :: l2),
    ← runScript_filter_ignored cfg (l1 ++ l2)]
  congr 1
  rw [List.filter_append, List.filter_append, List.filter_cons]
  simp [h]

theorem c9_witness :
    runScript wcfg
        ([⟨"a.json", some [("X", ⟨[1], [3]⟩)]⟩] ++ ⟨"bad.json", none⟩ :: []) =
      runScript wcfg ([⟨"a.json", some [("X", ⟨[1], [3]⟩)]⟩] ++ []) :=
  c9 wcfg [⟨"a.json", some [("X", ⟨[1], [3]⟩)]⟩] [] "bad.json" (by decide)

/-! ### Run success is exactly parseability of the processed files -/

theorem processFile_ok_iff {cfg : Config} {st : ScriptState} {f : InputFile} :
    (∃ st', processFile cfg st f = .ok st') ↔
      (fileSource f ∈ cfg.ignoreList ∨ f.content ≠ none) := by
  unfold processFile
  by_cases hig : fileSource f ∈ cfg.ignoreList
  · simp [hig]
  · rw [if_neg hig]
    cases hc : f.content with
    | none => simp [hig, hc]
    | some rec => simp [hig, hc]

theorem processFiles_ok_iff {cfg : Config} :
    ∀ (fs : List InputFile) (st : ScriptState),
    (∃ st', processFiles cfg fs st = .ok st') ↔
      ∀ f ∈ fs, fileSource f ∉ cfg.ignoreList → f.content ≠ none := by
  intro fs
  induction fs with
  | nil => intro st; simp [processFiles]
  | cons f fs ih =>
    intro st
    cases hpf : processFile cfg st f with
    | error e =>
      constructor
      · rintro ⟨st', h⟩
        rw [processFiles, hpf] at h
        cases h
      · intro hall
        exfalso
        have hok : ∃ st', processFile cfg st f = .ok st' := by
          refine processFile_ok_iff.mpr ?_
          by_cases hig : fileSource f ∈ cfg.ignoreList
          · exact Or.inl hig
          · exact Or.inr (hall f (List.mem_cons_self f fs) hig)
        obtain ⟨st', h⟩ := hok
        rw [h] at hpf
        cases hpf
    | ok st₁ =>
      constructor
      · rintro ⟨st', h⟩
        rw [processFiles, hpf] at h
        intro g hg hig
        rcases List.mem_cons.mp hg with rfl | hg'
        · rcases processFile_ok_iff.mp ⟨st₁, hpf⟩ with h' | h'
          · exact absurd h' hig
          · exact h'
        · exact ((ih st₁).mp ⟨st', h⟩) g hg' hig
      · intro hall
        obtain ⟨st', h⟩ := (ih st₁).mpr
          (fun g hg hig => hall g (List.mem_cons_of_mem f hg) hig)
        exact ⟨st', by rw [processFiles, hpf]; exact h⟩

/-- C8: the run completes exactly when every glob-matched file whose
derived source name is not ignored parses (content is readable as a
benchmark record); any malformed non-ignored file makes the load step
fail with an error value that nothing catches, aborting the whole
run. -/
theorem c8 (cfg : Config) (files : List InputFile) :
    (∃ st, runScript cfg files = .ok st) ↔
      ∀ f ∈ matchedFiles files, fileSource f ∉ cfg.ignoreList →
        f.content ≠ none := by
  unfold runScript processOrder
  rw [processFiles_ok_iff]
  have hperm := List.perm_insertionSort fileLe (matchedFiles files)
  constructor
  · intro h f hf; exact h f (hperm.mem_iff.mpr hf)
  · intro h f hf; exact h f (hperm.mem_iff.mp hf)

theorem c8_witness : ∃ st, runScript snowflurryConfig wfiles = .ok st :=
  (c8 snowflurryConfig wfiles).mpr (by decide)

/-- C10: the derived source name is the last path component with every
occurrence of the substring ".json" deleted — "a.json.json" yields "a"
(not "a.json" as trailing-extension removal would), and
"x.jsonfoo.json" yields "xfoo". -/
theorem c10 :
    derivedName "benchmarking/data/a.json.json" = "a" ∧
      derivedName "benchmarking/data/a.json.json" ≠ "a.json" ∧
      derivedName "benchmarking/data/x.jsonfoo.json" = "xfoo" ∧
      derivedName "benchmarking/data/sub/b.json" = "b" ∧
      fileSource ⟨"a.json.json", some []⟩ = "a" :=
  ⟨by decide, by decide, by decide, by decide, by decide⟩

/-- C4 counterexample: a file living in the data directory whose name
does not end in ".json" is not matched by the glob pattern and never
becomes an input source — the run ends in the untouched initial state. -/
theorem c4_counterexample :
    (⟨"notes.txt", some [("X", ⟨[1], [1]⟩)]⟩ : InputFile)
        ∉ matchedFiles [⟨"notes.txt", some [("X", ⟨[1], [1]⟩)]⟩] ∧
      (⟨"notes.txt", some [("X", ⟨[1], [1]⟩)]⟩ : InputFile)
        ∉ processOrder [⟨"notes.txt", some [("X", ⟨[1], [1]⟩)]⟩] ∧
      runScript snowflurryConfig [⟨"notes.txt", some [("X", ⟨[1], [1]⟩)]⟩] =
        .ok (initState snowflurryConfig) :=
  ⟨by decide, by decide, by rfl⟩

/-- C4 (amended): file discovery enumerates exactly the files of the
fixed data directory matched by the glob pattern *.json — name ends in
".json" and does not begin with a dot — and exactly those files enter
the processing order. -/
theorem c4 (files : List InputFile) (f : InputFile) :
    f ∈ processOrder files ↔ f ∈ files ∧ globMatches f.name = true := by
  unfold processOrder
  rw [(List.perm_insertionSort fileLe (matchedFiles files)).mem_iff]
  unfold matchedFiles
  rw [List.mem_filter]

theorem c4_witness :
    (⟨"a.json", some [("X", ⟨[1, 2], [15, 25]⟩), ("Y", ⟨[1], [5]⟩)]⟩ : InputFile)
      ∈ processOrder wfiles :=
  (c4 wfiles ⟨"a.json", some [("X", ⟨[1, 2], [15, 25]⟩), ("Y", ⟨[1], [5]⟩)]⟩).mpr
    ⟨by decide, by decide⟩

/-! ### Color-cycle consumption order -/

theorem stepGate_of_lookup_some {cfg : Config} {f : String} {rec : Record}
    {i : Nat} {g : String} {st : ScriptState} {c0 : String}
    (h : st.colorsDict.lookup f = some c0) :
    (stepGate cfg f rec i g st).colorsDict = st.colorsDict ∧
      (stepGate cfg f rec i g st).cycleLog = st.cycleLog := by
  cases hg : rec.lookup g with
  | none => exact ⟨by simp [stepGate, hg], by simp [stepGate, hg]⟩
  | some gd => exact ⟨by simp [stepGate, hg, h], by simp [stepGate, hg, h]⟩

theorem processGatesAux_of_lookup_some {cfg : Config} {f : String}
    {rec : Record} :
    ∀ (gs : List String) (i : Nat) (st : ScriptState) (c0 : String),
    st.colorsDict.lookup f = some c0 →
    (processGatesAux cfg f rec gs i st).colorsDict = st.colorsDict ∧
      (processGatesAux cfg f rec gs i st).cycleLog = st.cycleLog := by
  intro gs
  induction gs with
  | nil => intro i st c0 _; exact ⟨rfl, rfl⟩
  | cons g gs ih =>
    intro i st c0 h
    rw [processGatesAux]
    obtain ⟨hcd, hcl⟩ := stepGate_of_lookup_some h
    have h₁ : (stepGate cfg f rec i g st).colorsDict.lookup f = some c0 := by
      rw [hcd]; exact h
    obtain ⟨hcd', hcl'⟩ := ih (i + 1) _ c0 h₁
    exact ⟨hcd'.trans hcd, hcl'.trans hcl⟩

theorem stepGate_lookup_ne {cfg : Config} {f : String} {rec : Record}
    {i : Nat} {g : String} {st : ScriptState} {k : String} (hk : k ≠ f) :
    (stepGate cfg f rec i g st).colorsDict.lookup k =
      st.colorsDict.lookup k := by
  cases hg : rec.lookup g with
  | none => simp [stepGate, hg]
  | some gd =>
    cases hasn : st.colorsDict.lookup f with
    | some c0 => simp [stepGate, hg, hasn]
    | none =>
      simp only [stepGate, hg, hasn, Option.isSome_none, Bool.false_eq_true,
        if_false]
      rw [lookup_dictSet, if_neg hk]

theorem processGatesAux_lookup_ne {cfg : Config} {f : String} {rec : Record} :
    ∀ (gs : List String) (i : Nat) (st : ScriptState) (k : String), k ≠ f →
    (processGatesAux cfg f rec gs i st).colorsDict.lookup k =
      st.colorsDict.lookup k := by
  intro gs
  induction gs with
  | nil => intro i st k _; rfl
  | cons g gs ih =>
    intro i st k hk
    rw [processGatesAux, ih _ _ k hk, stepGate_lookup_ne hk]

theorem processGatesAux_cycleLog {cfg : Config} {f : String} {rec : Record} :
    ∀ (gs : List String) (i : Nat) (st : ScriptState),
    (processGatesAux cfg f rec gs i st).cycleLog.map (fun e => e.1) =
      st.cycleLog.map (fun e => e.1) ++
        (if (st.colorsDict.lookup f).isNone = true ∧
            gs.any (fun g => (rec.lookup g).isSome) = true
         then [f] else []) := by
  intro gs
  induction gs with
  | nil => intro i st; simp [processGatesAux]
  | cons g gs ih =>
    intro i st
    rw [processGatesAux]
    cases hasn : st.colorsDict.lookup f with
    | some c0 =>
      have h₁ : (stepGate cfg f rec i g st).colorsDict.lookup f = some c0 := by
        rw [(stepGate_of_lookup_some hasn).1]; exact hasn
      rw [(processGatesAux_of_lookup_some gs (i + 1) _ c0 h₁).2,
        (stepGate_of_lookup_some hasn).2]
      simp [hasn]
    | none =>
      cases hg : rec.lookup g with
      | none =>
        have hst : stepGate cfg f rec i g st = st := by
          rw [stepGate, hg]
        rw [hst, ih, hasn]
        have hcond : ((g :: gs).any fun g => (rec.lookup g).isSome) =
            (gs.any fun g => (rec.lookup g).isSome) := by
          rw [List.any_cons, hg]
          rfl
        rw [hcond]
      | some gd =>
        have hc1 : (stepGate cfg f rec i g st).colorsDict.lookup f =
            some (cycleColor (st.axes i).cycleIdx) := by
          simp only [stepGate, hg, hasn, Option.isSome_none, Bool.false_eq_true,
            if_false]
          rw [lookup_dictSet, if_pos rfl]
          rfl
        have hlog : (stepGate cfg f rec i g st).cycleLog =
            st.cycleLog ++ [(f, i, cycleColor (st.axes i).cycleIdx)] := by
          simp [stepGate, hg, hasn]
        rw [(processGatesAux_of_lookup_some gs (i + 1) _ _ hc1).2, hlog]
        simp [hasn, hg, List.any_cons]

theorem processFile_colorsDict_ne {cfg : Config} {st st' : ScriptState}
    {f : InputFile} (h : processFile cfg st f = .ok st') {k : String}
    (hk : k ≠ fileSource f) :
    st'.colorsDict.lookup k = st.colorsDict.lookup k := by
  unfold processFile at h
  by_cases hig : fileSource f ∈ cfg.ignoreList
  · rw [if_pos hig] at h
    injection h with h
    subst h
    rfl
  · rw [if_neg hig] at h
    cases hc : f.content with
    | none => rw [hc] at h; cases h
    | some rec =>
      rw [hc] at h
      injection h with h
      subst h
      rw [processGates, processGatesAux_lookup_ne _ _ _ k hk]

theorem processFile_cycleLog {cfg : Config} {st st' : ScriptState}
    {f : InputFile} (h : processFile cfg st f = .ok st')
    (hagree : st.colorsDict.lookup (fileSource f) =
      cfg.colorsDict.lookup (fileSource f)) :
    st'.cycleLog.map (fun e => e.1) = st.cycleLog.map (fun e => e.1) ++
      (if consumesCycle cfg f = true then [fileSource f] else []) := by
  unfold processFile at h
  by_cases hig : fileSource f ∈ cfg.ignoreList
  · rw [if_pos hig] at h
    injection h with h
    subst h
    simp [consumesCycle, hig]
  · rw [if_neg hig] at h
    cases hc : f.content with
    | none => rw [hc] at h; cases h
    | some rec =>
      rw [hc] at h
      injection h with h
      subst h
      rw [processGates, processGatesAux_cycleLog]
      show List.map (fun e => e.1) st.cycleLog ++
          (if (st.colorsDict.lookup (fileSource f)).isNone = true ∧
              (gatesList.any fun g => (rec.lookup g).isSome) = true
           then [fileSource f] else []) =
        List.map (fun e => e.1) st.cycleLog ++
          (if consumesCycle cfg f = true then [fileSource f] else [])
      congr 1
      by_cases hn : (st.colorsDict.lookup (fileSource f)).isNone = true
      · by_cases hany : (gatesList.any fun g => (rec.lookup g).isSome) = true
        · have hcn : (cfg.colorsDict.lookup (fileSource f)).isNone = true := by
            rw [← hagree]; exact hn
          have hcons : consumesCycle cfg f = true := by
            simp [consumesCycle, hig, hc, hany, hcn]
          rw [if_pos ⟨hn, hany⟩, if_pos hcons]
        · rw [Bool.not_eq_true] at hany
          have hcons : ¬ consumesCycle cfg f = true := by
            simp [consumesCycle, hc, hany]
          rw [if_neg (fun hand => by rw [hany] at hand; cases hand.2),
            if_neg hcons]
      · rw [Bool.not_eq_true] at hn
        have hcn : (cfg.colorsDict.lookup (fileSource f)).isNone = false := by
          rw [← hagree]; exact hn
        have hcons : ¬ consumesCycle cfg f = true := by
          simp [consumesCycle, hcn]
        rw [if_neg (fun hand => by rw [hn] at hand; cases hand.1),
          if_neg hcons]

theorem processFiles_cycleLog {cfg : Config} :
    ∀ (fs : List InputFile) (st st' : ScriptState),
    processFiles cfg fs st = .ok st' →
    (fs.map fileSource).Nodup →
    (∀ f ∈ fs, st.colorsDict.lookup (fileSource f) =
      cfg.colorsDict.lookup (fileSource f)) →
    st'.cycleLog.map (fun e => e.1) =
      st.cycleLog.map (fun e => e.1) ++
        (fs.filter (consumesCycle cfg)).map fileSource := by
  intro fs
  induction fs with
  | nil =>
    intro st st' h _ _
    rw [processFiles] at h
    injection h with h
    subst h
    simp
  | cons f fs ih =>
    intro st st' h hnd hagr
    rw [processFiles] at h
    cases hpf : processFile cfg st f with
    | error e => rw [hpf] at h; cases h
    | ok st₁ =>
      rw [hpf] at h
      have hagrf := hagr f (List.mem_cons_self f fs)
      have hlog1 := processFile_cycleLog hpf hagrf
      rw [List.map_cons, List.nodup_cons] at hnd
      have hagr' : ∀ g ∈ fs, st₁.colorsDict.lookup (fileSource g) =
          cfg.colorsDict.lookup (fileSource g) := by
        intro g hg
        have hne : fileSource g ≠ fileSource f := by
          intro he
          exact hnd.1 (he ▸ List.mem_map_of_mem fileSource hg)
        rw [processFile_colorsDict_ne hpf hne]
        exact hagr g (List.mem_cons_of_mem f hg)
      rw [ih st₁ st' h hnd.2 hagr', hlog1, List.filter_cons]
      by_cases hcons : consumesCycle cfg f = true
      · rw [if_pos hcons, if_pos hcons, List.map_cons, List.append_assoc]
        rfl
      · rw [if_neg hcons, if_neg hcons, List.append_nil]

/-- C5: the main loop visits exactly the glob-matched files, in
lexicographically sorted filename order, and when the derived source
names are distinct the sources that take a color from an automatic
color cycle do so exactly in that processing order (one slot per
drawing source without an explicit color). -/
theorem c5 (cfg : Config) (files : List InputFile) (st : ScriptState)
    (h : runScript cfg files = .ok st)
    (hnd : ((processOrder files).map fileSource).Nodup) :
    (processOrder files).Sorted fileLe ∧
      (processOrder files).Perm (matchedFiles files) ∧
      st.cycleLog.map (fun e => e.1) =
        ((processOrder files).filter (consumesCycle cfg)).map fileSource := by
  refine ⟨List.sorted_insertionSort fileLe (matchedFiles files),
    List.perm_insertionSort fileLe (matchedFiles files), ?_⟩
  unfold runScript at h
  have hlog := processFiles_cycleLog (processOrder files) _ _ h hnd
    (fun f _ => rfl)
  simpa [initState] using hlog

theorem c5_witness :
    (processOrder wfiles).Sorted fileLe ∧
      (processOrder wfiles).Perm (matchedFiles wfiles) ∧
      wstate.cycleLog.map (fun e => e.1) =
        ((processOrder wfiles).filter
          (consumesCycle snowflurryConfig)).map fileSource :=
  c5 snowflurryConfig wfiles wstate (by rfl) (by decide)

end PlotBench
